import Mathlib

/-!
Shallow embedding of the compression core of the HackSRM7 repository
(src/server/engine/__init__.py — Huffman codec, and
src/server/engine/lossless.py — greedy pattern-substitution codec),
together with proofs of the specified properties.

Modelling conventions:
* a Python `str` is a `List Char`;
* a Python `dict` is an insertion-ordered association list
  (`dictIncr` models `counts[k] += 1`, `dictUpd` models `d[k] = v`,
  `dictFind` models `d[k]` / `k in d` lookup);
* Python floats are modelled as exact rationals, with `round(x, n)`
  modelled as round-half-to-even on the exact value (`pyRound`);
* `heapq` is modelled by its contract: `heappop` removes a minimal
  element (here: the first minimal one), `heappush` adds an element.
  Tie order among equal weights is unspecified in the source
  (`_HuffmanNode` compares by `freq` alone) and no proved property
  depends on it;
* Python's `KeyError` on `d[k]` cannot occur in the places the codec
  indexes a dict (proved by coverage lemmas), so lookup is modelled
  with a default (`Option.getD`).
-/

namespace TokenTrim

/-- Python dict update `counts[k] = counts.get(k, 0) + 1`: increments in
place if the key is present, otherwise appends (insertion order kept). -/
def dictIncr {α : Type} [DecidableEq α] (k : α) : List (α × Nat) → List (α × Nat)
  | [] => [(k, 1)]
  | (a, n) :: rest => if a = k then (a, n + 1) :: rest else (a, n) :: dictIncr k rest

/-- Python dict update `d[k] = v`: overwrites in place if the key is
present, otherwise appends (insertion order kept). -/
def dictUpd {α β : Type} [DecidableEq α] (k : α) (v : β) : List (α × β) → List (α × β)
  | [] => [(k, v)]
  | (a, b) :: rest => if a = k then (k, v) :: rest else (a, b) :: dictUpd k v rest

/-- Python dict lookup `d[k]` (keys are unique in a dict, so first match). -/
def dictFind {α β : Type} [DecidableEq α] (k : α) : List (α × β) → Option β
  | [] => none
  | (a, b) :: rest => if a = k then some b else dictFind k rest

/-- Python `Counter(xs)`: per-element counts in first-occurrence order. -/
def counter (xs : List Char) : List (Char × Nat) :=
  xs.foldl (fun d c => dictIncr c d) []

/-- Stable insertion of `x` into a list sorted descending by `key`:
`x` goes after every element with a key ≥ its own. -/
def insertDescBy {α : Type} (key : α → Int) (x : α) : List α → List α
  | [] => [x]
  | y :: ys => if key y < key x then x :: y :: ys else y :: insertDescBy key x ys

/-- Stable descending sort by `key`, modelling Python
`list.sort(key=key, reverse=True)` (equal keys keep original order). -/
def sortDescBy {α : Type} (key : α → Int) (l : List α) : List α :=
  l.foldl (fun acc x => insertDescBy key x acc) []

/-- Round-half-to-even of a rational to an integer (Python `round`). -/
def pyRoundInt (q : Rat) : Int :=
  let f := ⌊q⌋
  if q - f < 1 / 2 then f
  else if 1 / 2 < q - f then f + 1
  else if f % 2 = 0 then f else f + 1

/-- Python `round(q, n)` on the exact rational value. -/
def pyRound (q : Rat) (n : Nat) : Rat :=
  (pyRoundInt (q * 10 ^ n) : Rat) / 10 ^ n

-- ── Huffman codec (src/server/engine/__init__.py) ──────────────────────

/-- The `_HuffmanNode` tree. In the source a leaf is a node with `char`
set and no children; merged internal nodes always have both children. -/
inductive HuffmanNode : Type where
  | leaf (freq : Nat) (char : Char)
  | node (freq : Nat) (left right : HuffmanNode)
deriving DecidableEq

/-- Weight of a node (`node.freq`). -/
def HuffmanNode.freq : HuffmanNode → Nat
  | .leaf f _ => f
  | .node f _ _ => f

/-- Leaf symbols of a tree, left to right. -/
def HuffmanNode.chars : HuffmanNode → List Char
  | .leaf _ c => [c]
  | .node _ l r => l.chars ++ r.chars

/-- Model of `heapq.heappop`: remove the first element of minimal `freq`.
Returns `none` on an empty heap. -/
def popMin : List HuffmanNode → Option (HuffmanNode × List HuffmanNode)
  | [] => none
  | x :: xs =>
    match popMin xs with
    | none => some (x, [])
    | some (m, rest) => if x.freq ≤ m.freq then some (x, xs) else some (m, x :: rest)

/-- The `while len(heap) > 1` merge loop of `_build_tree`, followed by
`heap[0] if heap else None`: pop the two lightest nodes, push their
merge, until one node remains. Structured with explicit fuel so the
kernel can evaluate it; each iteration shrinks the heap by one, so any
fuel ≥ the heap length never runs out (the `fuel = 0` fallback is dead,
see `buildLoop_fuel_irrel`). -/
def buildLoop (fuel : Nat) (heap : List HuffmanNode) : Option HuffmanNode :=
  match popMin heap with
  | none => none
  | some (l, rest1) =>
    match popMin rest1 with
    | none => some l
    | some (r, rest2) =>
      match fuel with
      | 0 => none
      | fuel' + 1 => buildLoop fuel' (rest2 ++ [HuffmanNode.node (l.freq + r.freq) l r])

/-- The source's `_build_tree`: one leaf per frequency-map entry, then the
merge loop. -/
def buildTree (freq : List (Char × Nat)) : Option HuffmanNode :=
  buildLoop freq.length (freq.map fun p => HuffmanNode.leaf p.2 p.1)

/-- The source's `_build_codes`: walk the tree, appending the bit for each
branch; a leaf records its accumulated path, or the one-bit code "0" when
the path is empty (single-node tree). Entries appear in traversal order,
exactly as the Python dict is filled. -/
def buildCodes : HuffmanNode → List Char → List (Char × List Char)
  | .leaf _ c, pfx => [(c, if pfx.isEmpty then ['0'] else pfx)]
  | .node _ l r, pfx => buildCodes l (pfx ++ ['0']) ++ buildCodes r (pfx ++ ['1'])

/-- Top-level `_build_codes(tree)` with its `None` guard. -/
def buildCodesTop : Option HuffmanNode → List (Char × List Char)
  | none => []
  | some t => buildCodes t []

/-- Result record of `huffman_encode` (`HuffmanResult`). -/
structure HuffmanResult : Type where
  encoded_bits : List Char
  code_table : List (Char × List Char)
  original_size_bits : Nat
  compressed_size_bits : Nat
  compression_ratio : Rat
  space_saved_pct : Rat
deriving DecidableEq

/-- The concatenation `"".join(code_table[ch] for ch in text)`. -/
def encodeBits (table : List (Char × List Char)) (text : List Char) : List Char :=
  text.flatMap fun ch => (dictFind ch table).getD []

/-- The source's `huffman_encode`. -/
def huffman_encode (text : List Char) : HuffmanResult :=
  if text = [] then
    { encoded_bits := []
      code_table := []
      original_size_bits := 0
      compressed_size_bits := 0
      compression_ratio := 1
      space_saved_pct := 0 }
  else
    let freq := counter text
    let tree := buildTree freq
    let code_table := buildCodesTop tree
    let encoded_bits := encodeBits code_table text
    let original_bits := text.length * 8
    let compressed_bits := encoded_bits.length
    let ratio : Rat := if compressed_bits ≠ 0 then (original_bits : Rat) / compressed_bits else 1
    let saved : Rat :=
      if original_bits ≠ 0 then (1 - (compressed_bits : Rat) / original_bits) * 100 else 0
    { encoded_bits := encoded_bits
      code_table := code_table
      original_size_bits := original_bits
      compressed_size_bits := compressed_bits
      compression_ratio := pyRound ratio 3
      space_saved_pct := pyRound saved 2 }

/-- The inverse table `{bits: ch for ch, bits in code_table.items()}`
(a dict comprehension: later duplicate keys would overwrite earlier). -/
def invertTable (table : List (Char × List Char)) : List (List Char × Char) :=
  table.foldl (fun d p => dictUpd p.2 p.1 d) []

/-- The scanning loop of `huffman_decode`: grow the buffer bit by bit,
emit a symbol and reset whenever the buffer is a key of the inverse
table; leftover buffer content at the end is dropped. -/
def decodeAux (inv : List (List Char × Char)) : List Char → List Char → List Char
  | [], _buf => []
  | b :: rest, buf =>
    let buf2 := buf ++ [b]
    match dictFind buf2 inv with
    | some ch => ch :: decodeAux inv rest []
    | none => decodeAux inv rest buf2

/-- The source's `huffman_decode`. -/
def huffman_decode (encoded_bits : List Char) (table : List (Char × List Char)) : List Char :=
  if encoded_bits = [] then [] else decodeAux (invertTable table) encoded_bits []

/-- Scanning loop instrumented with the final buffer, for stating what
`huffman_decode` does with trailing bits that never complete a codeword. -/
def decodeScan (inv : List (List Char × Char)) : List Char → List Char → List Char × List Char
  | [], buf => ([], buf)
  | b :: rest, buf =>
    let buf2 := buf ++ [b]
    match dictFind buf2 inv with
    | some ch =>
      let p := decodeScan inv rest []
      (ch :: p.1, p.2)
    | none => decodeScan inv rest buf2

-- ── Lossless substitution codec (src/server/engine/lossless.py) ────────

/-- The STX control character, `_STX = "\x02"`. -/
def STX : Char := '\x02'

/-- The ETX control character, `_ETX = "\x03"`. -/
def ETX : Char := '\x03'

/-- The escape sequence for a literal STX, `_ESCAPE = "\x02e\x02"`. -/
def ESCAPE : List Char := [STX, 'e', STX]

/-- Python `s.replace(pat, repl)` for a nonempty `pat`: leftmost,
non-overlapping. Fuel-structured so the kernel can evaluate it; for a
nonempty `pat` the scan position advances by at least one per step, so
any fuel ≥ the text length never runs out (the `fuel = 0` fallback is
dead, see `replaceFuel_fuel_irrel`). -/
def replaceFuel (pat repl : List Char) : Nat → List Char → List Char
  | _, [] => []
  | 0, s => s
  | fuel + 1, c :: rest =>
    if pat.isPrefixOf (c :: rest) then
      repl ++ replaceFuel pat repl fuel (List.drop pat.length (c :: rest))
    else
      c :: replaceFuel pat repl fuel rest

/-- Python `s.replace(pat, repl)` (an empty `pat` interleaves `repl`
around every character, as in CPython). -/
def replaceAll (s pat repl : List Char) : List Char :=
  if pat.length = 0 then repl ++ s.flatMap (fun c => c :: repl)
  else replaceFuel pat repl s.length s

/-- Python `s.count(pat)` for a nonempty `pat`: leftmost, non-overlapping,
fuel-structured like `replaceFuel`. -/
def countFuel (pat : List Char) : Nat → List Char → Nat
  | _, [] => 0
  | 0, _ => 0
  | fuel + 1, c :: rest =>
    if pat.isPrefixOf (c :: rest) then
      1 + countFuel pat fuel (List.drop pat.length (c :: rest))
    else
      countFuel pat fuel rest

/-- Python `s.count(pat)` (for an empty `pat` CPython returns `len+1`). -/
def countOccs (s pat : List Char) : Nat :=
  if pat.length = 0 then s.length + 1
  else countFuel pat s.length s

/-- Whether a character ends a line for Python `str.splitlines`. -/
def isLineBreak (c : Char) : Bool :=
  c = '\n' || c = '\r' || c = '\x0b' || c = '\x0c' || c = '\x1c' ||
    c = '\x1d' || c = '\x1e' || c = '\x85' || c = '\u2028' || c = '\u2029'

/-- Python `s.splitlines(keepends=True)`: cut after every line break
(with `\r\n` as one break), keeping the break characters; no empty final
line is produced for a trailing break. `acc` is the current line so far,
in reverse. -/
def splitlinesAux : List Char → List Char → List (List Char)
  | [], acc => if acc.isEmpty then [] else [acc.reverse]
  | '\r' :: '\n' :: rest, acc => (acc.reverse ++ ['\r', '\n']) :: splitlinesAux rest []
  | c :: rest, acc =>
    if isLineBreak c then (acc.reverse ++ [c]) :: splitlinesAux rest []
    else splitlinesAux rest (c :: acc)

/-- Python `s.splitlines(keepends=True)`. -/
def splitlines (s : List Char) : List (List Char) :=
  splitlinesAux s []

/-- Length in bytes of the UTF-8 encoding, Python `len(s.encode("utf-8"))`. -/
def utf8Length (s : List Char) : Nat :=
  (s.map Char.utf8Size).sum

/-- The placeholder width, `_placeholder_len()` = STX + 4 digits + ETX. -/
def placeholderLen : Nat := 1 + 4 + 1

/-- The candidate window texts scanned by `_find_patterns`, in scan
order: all 1-line, then 2-line, then 3-line sliding blocks. Python
`range(n - window + 1)` on ints equals `range((n + 1) - window)` on
naturals. -/
def candidateBlocks (lines : List (List Char)) : List (List Char) :=
  [1, 2, 3].flatMap fun w =>
    (List.range (lines.length + 1 - w)).map fun i => ((lines.drop i).take w).flatten

/-- The savings score `_savings`: `(cnt - 1) * max(0, len(pat) - ph_len)`
on Python ints. -/
def savings (p : List Char × Nat) : Int :=
  ((p.2 : Int) - 1) * max 0 ((p.1.length : Int) - (placeholderLen : Int))

/-- The source's `_find_patterns`: count qualifying windows, filter by
count and length, sort by savings descending (stable), cap at
`_MAX_PATTERNS` = 9999. -/
def findPatterns (text : List Char) : List (List Char × Nat) :=
  let lines := splitlines text
  let counts :=
    ((candidateBlocks lines).filter fun b => decide (20 ≤ b.length)).foldl
      (fun d b => dictIncr b d) []
  let result := counts.filter fun p => decide (2 ≤ p.2) && decide (20 ≤ p.1.length)
  (sortDescBy savings result).take 9999

/-- The source's `_remove_subsumed` walk: `earlier` collects the texts of
all previously seen candidates (kept or not), and a candidate contained
in any of them is dropped. -/
def removeSubsumedGo (earlier : List (List Char)) :
    List (List Char × Nat) → List (List Char × Nat)
  | [] => []
  | (pat, cnt) :: rest =>
    if earlier.any (fun pj => decide (pat <:+: pj)) then
      removeSubsumedGo (earlier ++ [pat]) rest
    else
      (pat, cnt) :: removeSubsumedGo (earlier ++ [pat]) rest

/-- The source's `_remove_subsumed`. -/
def removeSubsumed (ps : List (List Char × Nat)) : List (List Char × Nat) :=
  removeSubsumedGo [] ps

/-- Zero-padded 4-digit decimal, Python `f"{n:04d}"` for `n ≥ 0`. -/
def pad4 (n : Nat) : List Char :=
  let ds := Nat.toDigits 10 n
  List.replicate (4 - ds.length) '0' ++ ds

/-- The placeholder token for index `n`: STX + `pad4 n` + ETX. -/
def placeholder (n : Nat) : List Char :=
  STX :: (pad4 n ++ [ETX])

/-- The substitution loop of `lossless_encode`: for each candidate (with
its `enumerate` index `n`) stop at the index cap, skip candidates whose
occurrence count in the evolving body dropped below 2 or whose length
does not beat the placeholder, otherwise record the table entry and
substitute. Returns the final body and the decode table. -/
def substLoop :
    List (List Char × Nat) → Nat → List Char → List (List Char × List Char) →
      List Char × List (List Char × List Char)
  | [], _, body, table => (body, table)
  | (pat, _) :: rest, n, body, table =>
    if 9999 ≤ n then (body, table)
    else if countOccs body pat < 2 then substLoop rest (n + 1) body table
    else if pat.length ≤ placeholderLen then substLoop rest (n + 1) body table
    else
      substLoop rest (n + 1) (replaceAll body pat (placeholder n))
        (table ++ [(pad4 n, pat)])

/-- Result record of `lossless_encode` (`LosslessFile`). -/
structure LosslessFile : Type where
  filename : List Char
  language : List Char
  original_size : Nat
  encoded_size : Nat
  patterns_count : Nat
  compression_ratio : Rat
  space_saved_pct : Rat
  decode_table : List (List Char × List Char)
  body : List Char
deriving DecidableEq

/-- Everything `lossless_encode` does after the escape step, applied to
the already escaped body (the original text's UTF-8 size is passed in). -/
def encodeAfterEscape (filename language : List Char) (original_size : Nat)
    (body0 : List Char) : LosslessFile :=
  let cands := sortDescBy (fun p => (p.1.length : Int)) (removeSubsumed (findPatterns body0))
  let bt := substLoop cands 0 body0 []
  let encoded_size := utf8Length bt.1
  let ratio : Rat := if 0 < encoded_size then (original_size : Rat) / encoded_size else 1
  let saved : Rat :=
    if original_size ≠ 0 then max 0 ((1 - (encoded_size : Rat) / original_size) * 100) else 0
  { filename := filename
    language := language
    original_size := original_size
    encoded_size := encoded_size
    patterns_count := bt.2.length
    compression_ratio := ratio
    space_saved_pct := saved
    decode_table := bt.2
    body := bt.1 }

/-- The source's `lossless_encode`: escape raw STX, then find patterns,
prune subsumed ones, sort longest first, run the substitution loop, and
assemble the result with its statistics. -/
def lossless_encode (text filename language : List Char) : LosslessFile :=
  encodeAfterEscape filename language (utf8Length text) (replaceAll text [STX] ESCAPE)

/-- The source's `_decode_body`: replay the decode table in descending
numeric key order, then unescape STX. -/
def decodeBody (body : List Char) (table : List (List Char × List Char)) : List Char :=
  let sortedKeys := sortDescBy (fun k => ((k.foldl (fun n c => n * 10 + (c.toNat - 48)) 0 : Nat) : Int))
    (table.map Prod.fst)
  let b := sortedKeys.foldl
    (fun b key => replaceAll b (STX :: (key ++ [ETX])) ((dictFind key table).getD [])) body
  replaceAll b ESCAPE [STX]

/-- The source's `lossless_decode`. -/
def lossless_decode (f : LosslessFile) : List Char :=
  decodeBody f.body f.decode_table

/-- A 27-character line that repeats in the round-trip counterexample. -/
def cexLine : List Char := "abcdefghijklmnopqrstuvwxyz\n".data

/-- Counterexample input for the lossless round-trip: two copies of a
repeated long line (so pattern index 0 enters the decode table) followed
by the literal characters STX '0' '0' '0' '0' ETX. After the escape step
the body still contains the six-character substring STX 0 0 0 0 ETX
(the second STX of the escape, the digits, then the never-escaped ETX),
which the decoder mistakes for placeholder 0000. -/
def cexText : List Char := cexLine ++ cexLine ++ [STX, '0', '0', '0', '0', ETX]

-- ── Proofs ─────────────────────────────────────────────────────────────

theorem popMin_eq_none {heap : List HuffmanNode} :
    popMin heap = none ↔ heap = [] := by
  cases heap with
  | nil => simp [popMin]
  | cons x xs =>
    simp only [popMin]
    cases h : popMin xs with
    | none => simp
    | some p =>
      obtain ⟨m, rest⟩ := p
      by_cases hle : x.freq ≤ m.freq <;> simp [hle]

theorem popMin_length {heap : List HuffmanNode} {m : HuffmanNode}
    {rest : List HuffmanNode} (h : popMin heap = some (m, rest)) :
    rest.length + 1 = heap.length := by
  induction heap generalizing m rest with
  | nil => simp [popMin] at h
  | cons x xs ih =>
    simp only [popMin] at h
    cases hx : popMin xs with
    | none =>
      rw [hx] at h
      rw [popMin_eq_none] at hx
      subst hx
      simp at h
      simp [h.2]
    | some p =>
      obtain ⟨m0, rest0⟩ := p
      rw [hx] at h
      by_cases hle : x.freq ≤ m0.freq
      · simp [hle] at h
        simp [h.2]
      · simp [hle] at h
        obtain ⟨hm, hr⟩ := h
        subst hm
        subst hr
        simp [← ih hx]

theorem popMin_perm {heap : List HuffmanNode} {m : HuffmanNode}
    {rest : List HuffmanNode} (h : popMin heap = some (m, rest)) :
    heap.Perm (m :: rest) := by
  induction heap generalizing m rest with
  | nil => simp [popMin] at h
  | cons x xs ih =>
    simp only [popMin] at h
    cases hx : popMin xs with
    | none =>
      rw [hx] at h
      rw [popMin_eq_none] at hx
      subst hx
      simp at h
      simp [h.1, h.2]
    | some p =>
      obtain ⟨m0, rest0⟩ := p
      rw [hx] at h
      by_cases hle : x.freq ≤ m0.freq
      · simp [hle] at h
        rw [← h.1, ← h.2]
      · simp [hle] at h
        obtain ⟨hm, hr⟩ := h
        subst hm
        subst hr
        exact ((ih hx).cons x).trans (List.Perm.swap m0 x rest0)

theorem insertDescBy_length {α : Type} (key : α → Int) (x : α) (l : List α) :
    (insertDescBy key x l).length = l.length + 1 := by
  induction l with
  | nil => rfl
  | cons y ys ih =>
    simp only [insertDescBy]
    by_cases h : key y < key x <;> simp [h, ih]

theorem sortDescBy_length {α : Type} (key : α → Int) (l : List α) :
    (sortDescBy key l).length = l.length := by
  suffices h : ∀ acc : List α,
      (l.foldl (fun acc x => insertDescBy key x acc) acc).length = acc.length + l.length by
    simpa using h []
  induction l with
  | nil => simp
  | cons x xs ih =>
    intro acc
    simp only [List.foldl_cons]
    rw [ih (insertDescBy key x acc), insertDescBy_length]
    simp only [List.length_cons]
    omega

theorem removeSubsumedGo_length (earlier : List (List Char))
    (ps : List (List Char × Nat)) :
    (removeSubsumedGo earlier ps).length ≤ ps.length := by
  induction ps generalizing earlier with
  | nil => simp [removeSubsumedGo]
  | cons p rest ih =>
    obtain ⟨pat, cnt⟩ := p
    simp only [removeSubsumedGo]
    by_cases h : (earlier.any fun pj => decide (pat <:+: pj)) = true
    · simp only [if_pos h]
      exact le_trans (ih _) (by simp)
    · simp only [if_neg h, List.length_cons]
      exact Nat.succ_le_succ (ih _)

theorem findPatterns_length (text : List Char) :
    (findPatterns text).length ≤ 9999 := by
  simp only [findPatterns]
  exact le_trans (List.length_take_le _ _) le_rfl

theorem substLoop_table_length (cands : List (List Char × Nat)) (n : Nat)
    (body : List Char) (table : List (List Char × List Char)) :
    (substLoop cands n body table).2.length ≤ table.length + cands.length := by
  induction cands generalizing n body table with
  | nil => simp [substLoop]
  | cons c rest ih =>
    obtain ⟨pat, cnt⟩ := c
    simp only [substLoop]
    by_cases h1 : 9999 ≤ n
    · simp only [if_pos h1]
      simp
    · simp only [if_neg h1]
      by_cases h2 : countOccs body pat < 2
      · simp only [if_pos h2]
        exact le_trans (ih _ _ _)
          (by simp only [List.length_cons]; omega)
      · simp only [if_neg h2]
        by_cases h3 : pat.length ≤ placeholderLen
        · simp only [if_pos h3]
          exact le_trans (ih _ _ _)
            (by simp only [List.length_cons]; omega)
        · simp only [if_neg h3]
          refine le_trans (ih _ _ _) ?_
          simp only [List.length_append, List.length_cons, List.length_nil]
          omega

/-- C5: for every input text (and any filename and language), the decode
table produced by `lossless_encode` has at most 9999 entries — the
candidate list is capped at `_MAX_PATTERNS` and each candidate adds at
most one entry. -/
theorem lossless_decode_table_le_9999 (text filename language : List Char) :
    (lossless_encode text filename language).decode_table.length ≤ 9999 := by
  simp only [lossless_encode, encodeAfterEscape]
  refine le_trans (substLoop_table_length _ _ _ _) ?_
  simp only [Nat.zero_add, List.length_nil]
  rw [sortDescBy_length]
  exact le_trans (removeSubsumedGo_length _ _) (findPatterns_length _)

/-- C9: when no candidate pattern survives the filtering in
`_find_patterns` on the escaped input, `lossless_encode` returns the
escaped input as the body and an empty decode table. -/
theorem lossless_no_patterns (text filename language : List Char)
    (h : findPatterns (replaceAll text [STX] ESCAPE) = []) :
    (lossless_encode text filename language).body = replaceAll text [STX] ESCAPE ∧
      (lossless_encode text filename language).decode_table = [] := by
  simp [lossless_encode, encodeAfterEscape, h, removeSubsumed, removeSubsumedGo,
    sortDescBy, substLoop]

/-- Witness for C9 at the concrete input "ab" (too short for any window). -/
theorem lossless_no_patterns_witness :
    findPatterns (replaceAll "ab".data [STX] ESCAPE) = [] ∧
      ((lossless_encode "ab".data "f".data "py".data).body =
          replaceAll "ab".data [STX] ESCAPE ∧
        (lossless_encode "ab".data "f".data "py".data).decode_table = []) :=
  ⟨by decide, lossless_no_patterns "ab".data "f".data "py".data (by decide)⟩

theorem replaceFuel_single (a : Char) (repl : List Char) :
    ∀ (fuel : Nat) (s : List Char), s.length ≤ fuel →
      replaceFuel [a] repl fuel s = s.flatMap (fun c => if c = a then repl else [c]) := by
  intro fuel
  induction fuel with
  | zero =>
    intro s hs
    have : s = [] := List.eq_nil_of_length_eq_zero (Nat.le_zero.mp hs)
    subst this
    rfl
  | succ fuel ih =>
    intro s hs
    cases s with
    | nil => rfl
    | cons c rest =>
      simp only [replaceFuel, List.flatMap_cons]
      by_cases hac : a = c
      · subst hac
        have hpre : [a].isPrefixOf (a :: rest) = true := by
          simp [List.isPrefixOf]
        rw [if_pos hpre]
        simp only [List.length_cons, List.length_nil, List.drop_succ_cons, List.drop_zero]
        rw [ih rest (by simpa using Nat.le_of_succ_le_succ hs)]
        simp
      · have hpre : ¬ [a].isPrefixOf (c :: rest) = true := by
          simp [List.isPrefixOf]
          exact hac
        rw [if_neg hpre]
        rw [ih rest (by simpa using Nat.le_of_succ_le_succ hs)]
        have hca : ¬ c = a := fun h => hac h.symm
        simp [hca]

/-- Replacing a single character via Python `str.replace` maps every
occurrence of that character to the replacement, charwise. -/
theorem replaceAll_single (s : List Char) (a : Char) (repl : List Char) :
    replaceAll s [a] repl = s.flatMap (fun c => if c = a then repl else [c]) := by
  simp only [replaceAll, List.length_cons, List.length_nil]
  rw [if_neg (by omega)]
  exact replaceFuel_single a repl s.length s le_rfl

/-- C3 (counterexample): on the one-character input ETX the encoder's body
is exactly that ETX again — the reserved symbol \x03 is not replaced by
any escape sequence, contradicting the claim that both control symbols
are escaped. -/
theorem etx_not_escaped_cex :
    (lossless_encode [ETX] "f".data "txt".data).body = [ETX] := by
  decide

/-- C3 (amended): the escape step runs first and unconditionally, but it
only escapes STX: `lossless_encode` is the post-escape pipeline applied
to the text with every literal STX (and only STX) replaced by the
three-symbol sequence STX 'e' STX. -/
theorem lossless_escape_step_first (text filename language : List Char) :
    lossless_encode text filename language =
      encodeAfterEscape filename language (utf8Length text)
        (text.flatMap fun c => if c = STX then ESCAPE else [c]) ∧
      ESCAPE = [STX, 'e', STX] := by
  constructor
  · simp only [lossless_encode]
    rw [replaceAll_single]
  · rfl

/-- C1 (code bug): the lossless round trip fails on `cexText`, an input
containing the codec's own control symbols around a digit sequence that
resembles a placeholder token, although the source documents the round
trip as holding for any text. -/
theorem lossless_roundtrip_fails_on_cexText :
    lossless_decode (lossless_encode cexText "f".data "txt".data) ≠ cexText := by
  decide

/-- C6: on the empty text `huffman_encode` returns the defined zero-valued
result: empty bits, empty table, 0-bit sizes, ratio 1 and 0 percent saved
(and, the embedding being a total function, it never fails). -/
theorem huffman_encode_empty :
    huffman_encode [] =
      { encoded_bits := []
        code_table := []
        original_size_bits := 0
        compressed_size_bits := 0
        compression_ratio := 1
        space_saved_pct := 0 } := by
  decide

/-- C7: on the single-symbol input "aaaa" the code table maps 'a' to the
one-bit code "0" (not the empty string) and the encoded bits are "0000". -/
theorem huffman_encode_aaaa :
    (huffman_encode "aaaa".data).code_table = [('a', ['0'])] ∧
      (huffman_encode "aaaa".data).encoded_bits = "0000".data := by
  decide

theorem decodeScan_fst (inv : List (List Char × Char)) :
    ∀ (bits buf : List Char), (decodeScan inv bits buf).1 = decodeAux inv bits buf := by
  intro bits
  induction bits with
  | nil => intro buf; rfl
  | cons b rest ih =>
    intro buf
    simp only [decodeScan, decodeAux]
    cases dictFind (buf ++ [b]) inv with
    | none => exact ih (buf ++ [b])
    | some ch => simp [ih []]

theorem decodeAux_append (inv : List (List Char × Char)) (ys : List Char) :
    ∀ (xs buf : List Char),
      decodeAux inv (xs ++ ys) buf =
        (decodeScan inv xs buf).1 ++ decodeAux inv ys (decodeScan inv xs buf).2 := by
  intro xs
  induction xs with
  | nil => intro buf; rfl
  | cons b rest ih =>
    intro buf
    simp only [List.cons_append, decodeAux, decodeScan]
    cases dictFind (buf ++ [b]) inv with
    | none => exact ih (buf ++ [b])
    | some ch => simp [ih []]

theorem decodeAux_no_match (inv : List (List Char × Char)) :
    ∀ (ys buf : List Char),
      (∀ i, i < ys.length → dictFind (buf ++ ys.take (i + 1)) inv = none) →
      decodeAux inv ys buf = [] := by
  intro ys
  induction ys with
  | nil => intro buf _; rfl
  | cons b rest ih =>
    intro buf h
    simp only [decodeAux]
    have h0 : dictFind (buf ++ [b]) inv = none := by
      have := h 0 (by simp)
      simpa using this
    rw [h0]
    refine ih (buf ++ [b]) ?_
    intro i hi
    have := h (i + 1) (by simp; omega)
    simpa [List.append_assoc] using this

/-- C10: `huffman_decode` is a total scan that emits a symbol whenever
its growing buffer matches a codeword; bits at the end that never
complete a codeword (for the inverse of the given table, starting from
the scan's leftover buffer) are silently dropped — decoding the extended
bit string yields exactly the decode of the prefix, with no error. -/
theorem huffman_decode_drops_unmatched_tail
    (table : List (Char × List Char)) (bits extra : List Char)
    (h : ∀ i, i < extra.length →
      dictFind ((decodeScan (invertTable table) bits []).2 ++ extra.take (i + 1))
        (invertTable table) = none) :
    huffman_decode (bits ++ extra) table = huffman_decode bits table := by
  by_cases hb : bits = []
  · subst hb
    simp only [List.nil_append] at h ⊢
    have hlhs : decodeAux (invertTable table) extra [] = [] := by
      refine decodeAux_no_match _ extra [] ?_
      intro i hi
      have := h i hi
      simpa [decodeScan] using this
    by_cases he : extra = []
    · simp [he]
    · simp [huffman_decode, he, hlhs]
  · have hne : bits ++ extra ≠ [] := by
      intro hc
      exact hb (List.append_eq_nil.mp hc).1
    simp only [huffman_decode, if_neg hne, if_neg hb]
    rw [decodeAux_append]
    rw [decodeAux_no_match _ extra _ h]
    simp [decodeScan_fst]

theorem dictIncr_keys {α : Type} [DecidableEq α] (k : α) (d : List (α × Nat)) :
    (dictIncr k d).map Prod.fst =
      if k ∈ d.map Prod.fst then d.map Prod.fst else d.map Prod.fst ++ [k] := by
  induction d with
  | nil => simp [dictIncr]
  | cons p rest ih =>
    obtain ⟨a, n⟩ := p
    by_cases hak : a = k
    · subst hak
      simp [dictIncr]
    · simp only [dictIncr, if_neg hak, List.map_cons]
      rw [ih]
      have hka : ¬ k = a := fun h => hak h.symm
      by_cases hmem : k ∈ rest.map Prod.fst
      · simp [hmem, hka]
      · simp [hmem, hka]

theorem counterFold_keys (xs : List Char) :
    ∀ acc : List (Char × Nat), ((acc.map Prod.fst).Nodup) →
      (((xs.foldl (fun d c => dictIncr c d) acc).map Prod.fst).Nodup ∧
        ∀ c, c ∈ (xs.foldl (fun d c => dictIncr c d) acc).map Prod.fst ↔
          c ∈ acc.map Prod.fst ∨ c ∈ xs) := by
  induction xs with
  | nil =>
    intro acc hacc
    exact ⟨hacc, fun c => by simp⟩
  | cons x rest ih =>
    intro acc hacc
    simp only [List.foldl_cons]
    have hkeys := dictIncr_keys x acc
    have hnd : ((dictIncr x acc).map Prod.fst).Nodup := by
      rw [hkeys]
      by_cases hmem : x ∈ acc.map Prod.fst
      · simpa [hmem] using hacc
      · simp only [if_neg hmem]
        refine List.Nodup.append hacc (List.nodup_singleton x) ?_
        intro a ha hax
        rw [List.mem_singleton] at hax
        subst hax
        exact hmem ha
    obtain ⟨h1, h2⟩ := ih (dictIncr x acc) hnd
    refine ⟨h1, fun c => ?_⟩
    rw [h2 c, hkeys]
    by_cases hmem : x ∈ acc.map Prod.fst
    · simp only [if_pos hmem, List.mem_cons]
      constructor
      · rintro (hc | hc)
        · exact Or.inl hc
        · exact Or.inr (Or.inr hc)
      · rintro (hc | hc | hc)
        · exact Or.inl hc
        · exact Or.inl (hc ▸ hmem)
        · exact Or.inr hc
    · simp only [if_neg hmem, List.mem_append, List.mem_singleton, List.mem_cons]
      tauto

theorem counter_keys_nodup (xs : List Char) : ((counter xs).map Prod.fst).Nodup :=
  (counterFold_keys xs [] (by simp)).1

theorem counter_mem (xs : List Char) (c : Char) :
    c ∈ (counter xs).map Prod.fst ↔ c ∈ xs := by
  have := (counterFold_keys xs [] (by simp)).2 c
  simpa [counter] using this

theorem buildLoop_succ (fuel : Nat) (heap : List HuffmanNode) :
    buildLoop (fuel + 1) heap =
      match popMin heap with
      | none => none
      | some (l, rest1) =>
        match popMin rest1 with
        | none => some l
        | some (r, rest2) =>
          buildLoop fuel (rest2 ++ [HuffmanNode.node (l.freq + r.freq) l r]) := by
  rw [buildLoop]

theorem buildLoop_some :
    ∀ (fuel : Nat) (heap : List HuffmanNode), heap ≠ [] → heap.length ≤ fuel + 1 →
      ∃ t, buildLoop fuel heap = some t := by
  intro fuel
  induction fuel with
  | zero =>
    intro heap hne hlen
    match heap, hne, hlen with
    | [x], _, _ => exact ⟨x, rfl⟩
    | x :: y :: rest, _, hlen => simp at hlen
  | succ fuel ih =>
    intro heap hne hlen
    rw [buildLoop_succ]
    split
    · rename_i h1
      exact absurd (popMin_eq_none.mp h1) hne
    · rename_i l rest1 h1
      split
      · exact ⟨l, rfl⟩
      · rename_i r rest2 h2
        have e1 := popMin_length h1
        have e2 := popMin_length h2
        refine ih (rest2 ++ [HuffmanNode.node (l.freq + r.freq) l r]) (by simp) ?_
        simp only [List.length_append, List.length_cons, List.length_nil]
        omega

theorem buildLoop_chars :
    ∀ (fuel : Nat) (heap : List HuffmanNode) (t : HuffmanNode),
      buildLoop fuel heap = some t →
        (heap.flatMap HuffmanNode.chars).Perm t.chars := by
  intro fuel
  induction fuel with
  | zero =>
    intro heap t h
    rw [buildLoop] at h
    split at h
    · exact absurd h (by simp)
    · rename_i l rest1 h1
      split at h
      · rename_i h2
        simp only [Option.some_inj] at h
        subst h
        rw [popMin_eq_none] at h2
        subst h2
        have hperm := (popMin_perm h1).flatMap_right HuffmanNode.chars
        simpa using hperm
      · exact absurd h (by simp)
  | succ fuel ih =>
    intro heap t h
    rw [buildLoop] at h
    split at h
    · exact absurd h (by simp)
    · rename_i l rest1 h1
      split at h
      · rename_i h2
        simp only [Option.some_inj] at h
        subst h
        rw [popMin_eq_none] at h2
        subst h2
        have hperm := (popMin_perm h1).flatMap_right HuffmanNode.chars
        simpa using hperm
      · rename_i r rest2 h2
        have hrec := ih _ _ h
        have hp1 := (popMin_perm h1).flatMap_right HuffmanNode.chars
        have hp2 := (popMin_perm h2).flatMap_right HuffmanNode.chars
        refine List.Perm.trans ?_ hrec
        simp only [List.flatMap_cons] at hp1 hp2
        simp only [List.flatMap_append, List.flatMap_cons, List.flatMap_nil,
          HuffmanNode.chars, List.append_nil]
        refine hp1.trans ?_
        refine (List.Perm.append_left _ hp2).trans ?_
        rw [← List.append_assoc]
        exact List.perm_append_comm

theorem buildCodes_keys (t : HuffmanNode) :
    ∀ pfx : List Char, (buildCodes t pfx).map Prod.fst = t.chars := by
  induction t with
  | leaf f c => intro pfx; rfl
  | node f l r ihl ihr =>
    intro pfx
    simp only [buildCodes, HuffmanNode.chars, List.map_append, ihl, ihr]

theorem buildCodes_code_spec (t : HuffmanNode) :
    ∀ (pfx : List Char) (p : Char × List Char), p ∈ buildCodes t pfx →
      pfx <+: p.2 ∧ p.2 ≠ [] := by
  induction t with
  | leaf f c =>
    intro pfx p hp
    simp only [buildCodes, List.mem_singleton] at hp
    subst hp
    by_cases hpfx : pfx.isEmpty
    · rw [List.isEmpty_iff] at hpfx
      subst hpfx
      simp
    · simp only [hpfx, if_neg]
      constructor
      · exact List.prefix_rfl
      · rw [List.isEmpty_iff] at hpfx
        exact hpfx
  | node f l r ihl ihr =>
    intro pfx p hp
    simp only [buildCodes, List.mem_append] at hp
    cases hp with
    | inl hp =>
      obtain ⟨h1, h2⟩ := ihl (pfx ++ ['0']) p hp
      exact ⟨(List.prefix_append pfx ['0']).trans h1, h2⟩
    | inr hp =>
      obtain ⟨h1, h2⟩ := ihr (pfx ++ ['1']) p hp
      exact ⟨(List.prefix_append pfx ['1']).trans h1, h2⟩

theorem prefix_snoc_inj {l : List Char} {x y : Char} {s : List Char}
    (hx : l ++ [x] <+: s) (hy : l ++ [y] <+: s) : x = y := by
  obtain ⟨u, hu⟩ := hx
  obtain ⟨v, hv⟩ := hy
  rw [← hu] at hv
  simp only [List.append_assoc, List.singleton_append] at hv
  have := List.append_cancel_left hv
  exact (List.cons_eq_cons.mp this).1.symm

theorem buildCodes_pairwise (t : HuffmanNode) :
    ∀ pfx : List Char,
      (buildCodes t pfx).Pairwise (fun a b => ¬ a.2 <+: b.2 ∧ ¬ b.2 <+: a.2) := by
  induction t with
  | leaf f c => intro pfx; simp [buildCodes]
  | node f l r ihl ihr =>
    intro pfx
    simp only [buildCodes]
    rw [List.pairwise_append]
    refine ⟨ihl _, ihr _, ?_⟩
    intro a ha b hb
    obtain ⟨ha1, _⟩ := buildCodes_code_spec l _ a ha
    obtain ⟨hb1, _⟩ := buildCodes_code_spec r _ b hb
    constructor
    · intro hab
      exact absurd (prefix_snoc_inj (ha1.trans hab) hb1) (by decide)
    · intro hba
      exact absurd (prefix_snoc_inj ha1 (hb1.trans hba)) (by decide)

theorem dictFind_mem {α β : Type} [DecidableEq α] :
    ∀ {l : List (α × β)} {k : α} {v : β}, dictFind k l = some v → (k, v) ∈ l := by
  intro l
  induction l with
  | nil => intro k v h; exact absurd h (by simp [dictFind])
  | cons p rest ih =>
    intro k v h
    obtain ⟨a, b⟩ := p
    simp only [dictFind] at h
    by_cases hak : a = k
    · rw [if_pos hak] at h
      simp only [Option.some_inj] at h
      subst hak
      subst h
      exact List.mem_cons_self _ _
    · rw [if_neg hak] at h
      exact List.mem_cons_of_mem _ (ih h)

theorem dictFind_eq_some_of_mem {α β : Type} [DecidableEq α] :
    ∀ {l : List (α × β)} {k : α} {v : β},
      (l.map Prod.fst).Nodup → (k, v) ∈ l → dictFind k l = some v := by
  intro l
  induction l with
  | nil => intro k v _ h; simp at h
  | cons p rest ih =>
    intro k v hnd hmem
    obtain ⟨a, b⟩ := p
    simp only [List.map_cons, List.nodup_cons] at hnd
    obtain ⟨hna, hnd⟩ := hnd
    simp only [dictFind]
    rcases List.mem_cons.mp hmem with heq | hmem2
    · cases heq
      simp
    · by_cases hak : a = k
      · subst hak
        exact absurd (List.mem_map_of_mem Prod.fst hmem2) hna
      · rw [if_neg hak]
        exact ih hnd hmem2

theorem dictFind_isSome_of_mem_keys {α β : Type} [DecidableEq α] :
    ∀ {l : List (α × β)} {k : α}, k ∈ l.map Prod.fst → ∃ v, dictFind k l = some v := by
  intro l
  induction l with
  | nil => intro k h; simp at h
  | cons p rest ih =>
    intro k h
    obtain ⟨a, b⟩ := p
    simp only [dictFind]
    by_cases hak : a = k
    · exact ⟨b, by rw [if_pos hak]⟩
    · simp only [List.map_cons, List.mem_cons] at h
      rcases h with h | h
      · exact absurd h.symm hak
      · rw [if_neg hak]
        exact ih h

theorem dictUpd_fresh {α β : Type} [DecidableEq α] (k : α) (v : β) :
    ∀ d : List (α × β), k ∉ d.map Prod.fst → dictUpd k v d = d ++ [(k, v)] := by
  intro d
  induction d with
  | nil => intro _; rfl
  | cons p rest ih =>
    intro h
    obtain ⟨a, b⟩ := p
    simp only [List.map_cons, List.mem_cons] at h
    push_neg at h
    have hka : ¬ a = k := fun hak => h.1 hak.symm
    simp only [dictUpd, if_neg hka, List.cons_append]
    rw [ih h.2]

theorem invertTable_go :
    ∀ (tbl : List (Char × List Char)) (acc : List (List Char × Char)),
      (tbl.map Prod.snd).Nodup → (∀ p ∈ tbl, p.2 ∉ acc.map Prod.fst) →
      tbl.foldl (fun d p => dictUpd p.2 p.1 d) acc =
        acc ++ tbl.map (fun p => (p.2, p.1)) := by
  intro tbl
  induction tbl with
  | nil => intro acc _ _; simp
  | cons p rest ih =>
    intro acc hnd hfresh
    obtain ⟨c, code⟩ := p
    simp only [List.map_cons, List.nodup_cons] at hnd
    obtain ⟨hcode, hnd⟩ := hnd
    simp only [List.foldl_cons]
    rw [dictUpd_fresh code c acc (hfresh (c, code) (List.mem_cons_self _ _))]
    rw [ih (acc ++ [(code, c)]) hnd ?_]
    · simp
    · intro q hq
      simp only [List.map_append, List.mem_append, List.map_cons, List.map_nil,
        List.mem_singleton]
      push_neg
      constructor
      · exact hfresh q (List.mem_cons_of_mem _ hq)
      · intro hqc
        exact hcode (hqc ▸ List.mem_map_of_mem Prod.snd hq)

theorem invertTable_eq_swap (table : List (Char × List Char))
    (h : (table.map Prod.snd).Nodup) :
    invertTable table = table.map (fun p => (p.2, p.1)) := by
  have := invertTable_go table [] h (by simp)
  simpa [invertTable] using this

theorem flatMap_singleton_eq_map {α β : Type} (l : List α) (f : α → β) :
    (l.flatMap fun x => [f x]) = l.map f := by
  induction l with
  | nil => rfl
  | cons x xs ih => simp [ih]

theorem counter_ne_nil {text : List Char} (h : text ≠ []) : counter text ≠ [] := by
  cases text with
  | nil => exact absurd rfl h
  | cons c rest =>
    intro hc
    have := (counter_mem (c :: rest) c).mpr (List.mem_cons_self _ _)
    rw [hc] at this
    simp at this

theorem buildTree_spec {text : List Char} (h : text ≠ []) :
    ∃ tr, buildTree (counter text) = some tr ∧
      tr.chars.Perm ((counter text).map Prod.fst) := by
  set heap := (counter text).map (fun p => HuffmanNode.leaf p.2 p.1) with hheap
  have hne : heap ≠ [] := by
    simp only [hheap, ne_eq, List.map_eq_nil_iff]
    exact counter_ne_nil h
  have hlen : heap.length ≤ (counter text).length + 1 := by
    simp [hheap]
  obtain ⟨tr, htr⟩ := buildLoop_some (counter text).length heap hne hlen
  refine ⟨tr, htr, ?_⟩
  have hchars := buildLoop_chars (counter text).length heap tr htr
  have hflt : heap.flatMap HuffmanNode.chars = (counter text).map Prod.fst := by
    rw [hheap, List.flatMap_map]
    exact flatMap_singleton_eq_map (counter text) Prod.fst
  rw [hflt] at hchars
  exact hchars.symm

theorem code_table_spec {text : List Char} (h : text ≠ []) :
    ((buildCodesTop (buildTree (counter text))).map Prod.fst).Nodup ∧
      (buildCodesTop (buildTree (counter text))).Pairwise
        (fun a b => ¬ a.2 <+: b.2 ∧ ¬ b.2 <+: a.2) ∧
      (∀ p ∈ buildCodesTop (buildTree (counter text)), p.2 ≠ []) ∧
      (∀ c ∈ text, c ∈ (buildCodesTop (buildTree (counter text))).map Prod.fst) := by
  obtain ⟨tr, htr, hperm⟩ := buildTree_spec h
  rw [htr]
  simp only [buildCodesTop]
  rw [buildCodes_keys tr []]
  refine ⟨hperm.symm.nodup (counter_keys_nodup text), buildCodes_pairwise tr [],
    fun p hp => (buildCodes_code_spec tr [] p hp).2, fun c hc => ?_⟩
  exact (hperm.mem_iff).mpr ((counter_mem text c).mpr hc)

theorem encodeBits_cons (table : List (Char × List Char)) (c : Char)
    (rest : List Char) (code : List Char) (hfind : dictFind c table = some code) :
    encodeBits table (c :: rest) = code ++ encodeBits table rest := by
  simp [encodeBits, hfind]

theorem decodeAux_emits (inv : List (List Char × Char)) (code : List Char) (c : Char)
    (rest : List Char) (hfind : dictFind code inv = some c)
    (hpre : ∀ p, p <+: code → p ≠ [] → p ≠ code → dictFind p inv = none) :
    ∀ (suf pre : List Char), pre ++ suf = code → suf ≠ [] →
      decodeAux inv (suf ++ rest) pre = c :: decodeAux inv rest [] := by
  intro suf
  induction suf with
  | nil => intro pre _ hne; exact absurd rfl hne
  | cons b suf2 ih =>
    intro pre hcode _
    cases suf2 with
    | nil =>
      simp only [List.singleton_append, decodeAux]
      rw [show pre ++ [b] = code from hcode, hfind]
      rfl
    | cons b2 suf3 =>
      simp only [List.cons_append, decodeAux]
      have hmiss : dictFind (pre ++ [b]) inv = none := by
        refine hpre (pre ++ [b]) ?_ (by simp) ?_
        · refine ⟨b2 :: suf3, ?_⟩
          rw [← hcode]
          simp
        · intro heq
          have hlen := congrArg List.length hcode
          have hlen2 := congrArg List.length heq
          simp only [List.length_append, List.length_cons, List.length_nil] at hlen hlen2
          omega
      rw [hmiss]
      refine ih (pre ++ [b]) ?_ (by simp)
      rw [← hcode]
      simp

theorem codes_nodup_of_pairwise {table : List (Char × List Char)}
    (hpw : table.Pairwise (fun a b => ¬ a.2 <+: b.2 ∧ ¬ b.2 <+: a.2)) :
    (table.map Prod.snd).Nodup := by
  rw [List.Nodup, List.pairwise_map]
  refine hpw.imp ?_
  intro a b hab heq
  exact hab.1 (heq ▸ List.prefix_rfl)

theorem decodeAux_encodeBits (table : List (Char × List Char))
    (hnd : (table.map Prod.fst).Nodup)
    (hpw : table.Pairwise (fun a b => ¬ a.2 <+: b.2 ∧ ¬ b.2 <+: a.2))
    (hne : ∀ p ∈ table, p.2 ≠ []) :
    ∀ text : List Char, (∀ c ∈ text, c ∈ table.map Prod.fst) →
      decodeAux (invertTable table) (encodeBits table text) [] = text := by
  have hcodes : (table.map Prod.snd).Nodup := codes_nodup_of_pairwise hpw
  have hinv : invertTable table = table.map (fun p => (p.2, p.1)) :=
    invertTable_eq_swap table hcodes
  have hinvkeys : ((invertTable table).map Prod.fst).Nodup := by
    rw [hinv, List.map_map]
    exact hcodes
  intro text
  induction text with
  | nil => intro _; rfl
  | cons c rest ih =>
    intro hcov
    obtain ⟨code, hfind⟩ :=
      dictFind_isSome_of_mem_keys (hcov c (List.mem_cons_self _ _))
    have hmem : (c, code) ∈ table := dictFind_mem hfind
    have hcodene : code ≠ [] := hne _ hmem
    have hfind_inv : dictFind code (invertTable table) = some c := by
      rw [hinv]
      refine dictFind_eq_some_of_mem ?_ ?_
      · rw [List.map_map]
        exact hcodes
      · exact List.mem_map_of_mem _ hmem
    have hpre : ∀ p, p <+: code → p ≠ [] → p ≠ code →
        dictFind p (invertTable table) = none := by
      intro p hp hpne hpcode
      cases hd : dictFind p (invertTable table) with
      | none => rfl
      | some d =>
        have hdmem : (p, d) ∈ invertTable table := dictFind_mem hd
        rw [hinv] at hdmem
        obtain ⟨q, hq, hqe⟩ := List.mem_map.mp hdmem
        obtain ⟨d0, p0⟩ := q
        simp only [Prod.mk.injEq] at hqe
        obtain ⟨hqp, hqd⟩ := hqe
        rw [hqp, hqd] at hq
        have hsym : Symmetric (fun a b : Char × List Char =>
            ¬ a.2 <+: b.2 ∧ ¬ b.2 <+: a.2) := by
          intro a b hab
          exact ⟨hab.2, hab.1⟩
        have hne2 : (d, p) ≠ (c, code) := by
          intro hc
          exact hpcode (congrArg Prod.snd hc)
        have := List.Pairwise.forall hsym hpw hq hmem hne2
        exact absurd hp this.1
    rw [encodeBits_cons table c rest code hfind]
    rw [decodeAux_emits (invertTable table) code c (encodeBits table rest)
      hfind_inv hpre code [] (by simp) hcodene]
    rw [ih (fun x hx => hcov x (List.mem_cons_of_mem _ hx))]

theorem encodeBits_ne_nil (table : List (Char × List Char)) (c : Char)
    (rest : List Char) (code : List Char) (hfind : dictFind c table = some code)
    (hcodene : code ≠ []) : encodeBits table (c :: rest) ≠ [] := by
  rw [encodeBits_cons table c rest code hfind]
  simp [hcodene]

theorem huffman_encode_proj {text : List Char} (h : text ≠ []) :
    (huffman_encode text).code_table = buildCodesTop (buildTree (counter text)) ∧
      (huffman_encode text).encoded_bits =
        encodeBits (buildCodesTop (buildTree (counter text))) text := by
  constructor <;> simp only [huffman_encode, if_neg h]

/-- C2: Huffman decoding the Huffman encoding with its own code table
reproduces every text exactly — including the empty text, single-character
texts and texts containing the two reserved control symbols, which receive
no special treatment in the Huffman codec. -/
theorem huffman_roundtrip (text : List Char) :
    huffman_decode (huffman_encode text).encoded_bits (huffman_encode text).code_table =
      text := by
  by_cases h : text = []
  · subst h
    rfl
  · obtain ⟨htab, hbits⟩ := huffman_encode_proj h
    rw [htab, hbits]
    obtain ⟨hnd, hpw, hne, hcov⟩ := code_table_spec h
    cases text with
    | nil => exact absurd rfl h
    | cons c rest =>
      obtain ⟨code, hfind⟩ :=
        dictFind_isSome_of_mem_keys (hcov c (List.mem_cons_self _ _))
      have hcodene : code ≠ [] := hne _ (dictFind_mem hfind)
      have hbne := encodeBits_ne_nil _ c rest code hfind hcodene
      rw [huffman_decode, if_neg hbne]
      exact decodeAux_encodeBits _ hnd hpw hne (c :: rest) hcov

/-- C4: whenever the input text has at least two distinct characters, the
code table produced by `huffman_encode` is prefix-free: no codeword of one
entry is a prefix of the codeword of a different entry. -/
theorem huffman_code_table_prefix_free (text : List Char)
    (h : ∃ a ∈ text, ∃ b ∈ text, a ≠ b) :
    ∀ p ∈ (huffman_encode text).code_table, ∀ q ∈ (huffman_encode text).code_table,
      p ≠ q → ¬ p.2 <+: q.2 := by
  have htne : text ≠ [] := by
    obtain ⟨a, ha, _⟩ := h
    intro hc
    subst hc
    simp at ha
  obtain ⟨htab, _⟩ := huffman_encode_proj htne
  rw [htab]
  obtain ⟨_, hpw, _, _⟩ := code_table_spec htne
  intro p hp q hq hpq
  have hsym : Symmetric (fun a b : Char × List Char =>
      ¬ a.2 <+: b.2 ∧ ¬ b.2 <+: a.2) := by
    intro a b hab
    exact ⟨hab.2, hab.1⟩
  exact (List.Pairwise.forall hsym hpw hp hq hpq).1

/-- Witness for C4 at the concrete input "ab", whose alphabet has two
distinct characters. -/
theorem huffman_code_table_prefix_free_witness :
    (∃ a ∈ "ab".data, ∃ b ∈ "ab".data, a ≠ b) ∧
      (∀ p ∈ (huffman_encode "ab".data).code_table,
        ∀ q ∈ (huffman_encode "ab".data).code_table, p ≠ q → ¬ p.2 <+: q.2) :=
  ⟨by decide, huffman_code_table_prefix_free "ab".data (by decide)⟩

theorem huffman_stats_fields (text : List Char) (h : text ≠ []) :
    (huffman_encode text).original_size_bits = text.length * 8 ∧
      (huffman_encode text).compressed_size_bits =
        (huffman_encode text).encoded_bits.length ∧
      (huffman_encode text).compression_ratio =
        pyRound (((huffman_encode text).original_size_bits : Rat) /
          ((huffman_encode text).compressed_size_bits : Rat)) 3 ∧
      (huffman_encode text).space_saved_pct =
        pyRound ((1 - ((huffman_encode text).compressed_size_bits : Rat) /
          ((huffman_encode text).original_size_bits : Rat)) * 100) 2 := by
  have ho : text.length * 8 ≠ 0 := by
    have := List.length_pos.mpr h
    omega
  cases text with
  | nil => exact absurd rfl h
  | cons c rest =>
    obtain ⟨hnd, hpw, hne, hcov⟩ := @code_table_spec (c :: rest) (by simp)
    obtain ⟨code, hfind⟩ :=
      dictFind_isSome_of_mem_keys (hcov c (List.mem_cons_self _ _))
    have hcodene : code ≠ [] := hne _ (dictFind_mem hfind)
    have hbne := encodeBits_ne_nil _ c rest code hfind hcodene
    have hlne :
        (encodeBits (buildCodesTop (buildTree (counter (c :: rest)))) (c :: rest)).length
          ≠ 0 := by
      intro hc
      exact hbne (List.length_eq_zero.mp hc)
    refine ⟨?_, ?_, ?_, ?_⟩
    · simp only [huffman_encode, if_neg (show ¬ (c :: rest) = [] by simp)]
    · simp only [huffman_encode, if_neg (show ¬ (c :: rest) = [] by simp)]
    · simp only [huffman_encode, if_neg (show ¬ (c :: rest) = [] by simp)]
      rw [if_pos hlne]
    · simp only [huffman_encode, if_neg (show ¬ (c :: rest) = [] by simp)]
      rw [if_pos (show (c :: rest).length * 8 ≠ 0 from ho)]

/-- C8 (amended): for every non-empty text the result of `huffman_encode`
satisfies original bits = 8 × length and compressed bits = encoded length
exactly, while the ratio and percent-saved statistics are the rounded
values round(original/compressed, 3) and round((1 − compressed/original)
× 100, 2). -/
theorem huffman_stats_rounded (text : List Char) (h : text ≠ []) :
    (huffman_encode text).original_size_bits = text.length * 8 ∧
      (huffman_encode text).compressed_size_bits =
        (huffman_encode text).encoded_bits.length ∧
      (huffman_encode text).compression_ratio =
        pyRound (((huffman_encode text).original_size_bits : Rat) /
          ((huffman_encode text).compressed_size_bits : Rat)) 3 ∧
      (huffman_encode text).space_saved_pct =
        pyRound ((1 - ((huffman_encode text).compressed_size_bits : Rat) /
          ((huffman_encode text).original_size_bits : Rat)) * 100) 2 :=
  huffman_stats_fields text h

/-- Witness for C8 (amended) at the concrete non-empty input "ab". -/
theorem huffman_stats_rounded_witness :
    ("ab".data ≠ []) ∧
      ((huffman_encode "ab".data).original_size_bits = "ab".data.length * 8 ∧
        (huffman_encode "ab".data).compressed_size_bits =
          (huffman_encode "ab".data).encoded_bits.length ∧
        (huffman_encode "ab".data).compression_ratio =
          pyRound (((huffman_encode "ab".data).original_size_bits : Rat) /
            ((huffman_encode "ab".data).compressed_size_bits : Rat)) 3 ∧
        (huffman_encode "ab".data).space_saved_pct =
          pyRound ((1 - ((huffman_encode "ab".data).compressed_size_bits : Rat) /
            ((huffman_encode "ab".data).original_size_bits : Rat)) * 100) 2) :=
  ⟨by decide, huffman_stats_rounded "ab".data (by decide)⟩

/-- C8 (counterexample): on the input "abbccccdddddddd" (120 original
bits, 25 compressed bits) the stored percent saved is the rounded 79.17,
not the exact (1 − 25 / 120) × 100 = 79.1666…, so the claimed exact
equality fails. -/
theorem huffman_stats_exact_cex :
    ¬ ((huffman_encode "abbccccdddddddd".data).space_saved_pct =
      (1 - ((huffman_encode "abbccccdddddddd".data).compressed_size_bits : Rat) /
        ((huffman_encode "abbccccdddddddd".data).original_size_bits : Rat)) * 100) := by
  have h4 := (huffman_stats_fields "abbccccdddddddd".data (by decide)).2.2.2
  have ho : (huffman_encode "abbccccdddddddd".data).original_size_bits = 120 := by decide
  have hc : (huffman_encode "abbccccdddddddd".data).compressed_size_bits = 25 := by decide
  rw [h4, ho, hc]
  norm_num [pyRound, pyRoundInt]

/-- Witness for C10: with the table mapping 'a' to "00", decoding "001"
silently drops the trailing unmatched bit and agrees with decoding "00". -/
theorem huffman_decode_drops_unmatched_tail_witness :
    (∀ i, i < (['1'] : List Char).length →
      dictFind ((decodeScan (invertTable [('a', ['0', '0'])]) ['0', '0'] []).2 ++
          (['1'] : List Char).take (i + 1))
        (invertTable [('a', ['0', '0'])]) = none) ∧
      huffman_decode (['0', '0'] ++ ['1']) [('a', ['0', '0'])] =
        huffman_decode ['0', '0'] [('a', ['0', '0'])] :=
  ⟨by decide, huffman_decode_drops_unmatched_tail [('a', ['0', '0'])] ['0', '0'] ['1']
    (by decide)⟩

end TokenTrim
